import Mathlib

/-!
Shallow embedding of the transaction aggregation and reporting engine of the
repository (src/utils.py, src/reports.py, src/services.py), together with
proofs about the embedded operations.

Conventions of the embedding:
* Monetary quantities are modelled as exact rationals (`ℚ`); Python's
  `round(x, 2)` is modelled by `round2` below.
* Python `datetime` values are modelled by `DT` (year/month/day plus
  seconds-within-day); ordering of datetimes is ordering of `DT.instant`,
  the second count on a uniform 86400-second-per-day timeline, with the
  day number computed exactly as CPython's `datetime._ymd2ord`.
* Python strings are modelled by Lean `String`; `str.lower` is modelled by
  `pyLower`, covering the ASCII and Cyrillic alphabets that appear in the
  program's data (other characters are fixed points, as in Python for
  caseless characters).
* Regular-expression searching (`re.search`) is modelled by explicit
  backtracking matchers over the character list of the string.
-/

/- Batteries marks the rational operations `@[irreducible]`, which blocks
`decide` on concrete rational computations; restore reducibility. -/
unseal Rat.add Rat.mul Rat.sub Rat.inv Rat.ofScientific

/-! ## Calendar arithmetic (CPython `datetime` internals) -/

/-- `_DAYS_BEFORE_MONTH` of CPython `datetime`: for month `m` (1-based),
days in the year before that month, in a non-leap year. -/
def daysBeforeMonthTable : List Nat :=
  [0, 31, 59, 90, 120, 151, 181, 212, 243, 273, 304, 334]

/-- Gregorian leap-year test, as in CPython `datetime._is_leap`. -/
def isLeapYear (y : Nat) : Bool :=
  y % 4 == 0 && (y % 100 != 0 || y % 400 == 0)

/-- CPython `datetime._days_before_year`: days before January 1st of `y`. -/
def daysBeforeYear (y : Nat) : Nat :=
  let p := y - 1
  p * 365 + p / 4 + p / 400 - p / 100

/-- CPython `datetime._days_before_month`. -/
def daysBeforeMonth (y m : Nat) : Nat :=
  daysBeforeMonthTable.getD (m - 1) 0 + (if 2 < m && isLeapYear y then 1 else 0)

/-- CPython `datetime._ymd2ord`: proleptic Gregorian ordinal of a date,
with `0001-01-01` having ordinal 1. -/
def ymd2ord (y m d : Nat) : Nat :=
  daysBeforeYear y + daysBeforeMonth y m + d

/-- A `datetime` value: calendar date plus seconds within the day. -/
structure DT where
  year : Nat
  month : Nat
  day : Nat
  secs : Nat
  deriving DecidableEq, Repr

/-- Well-formedness of a `DT`, matching the ranges `datetime` enforces
(we only need the bounds that the proofs use). -/
def DT.Valid (t : DT) : Prop :=
  1 ≤ t.year ∧ 1 ≤ t.month ∧ t.month ≤ 12 ∧ 1 ≤ t.day ∧ t.day ≤ 31 ∧ t.secs < 86400

instance (t : DT) : Decidable t.Valid := by unfold DT.Valid; infer_instance

/-- The instant of a datetime on a uniform timeline (seconds; days are
uniformly 86400 s, as for `datetime`/`pandas.Timestamp` comparisons). -/
def DT.instant (t : DT) : ℤ :=
  (ymd2ord t.year t.month t.day : ℤ) * 86400 + t.secs

/-- `datetime.date.weekday`: Monday = 0 … Sunday = 6
(CPython: `(toordinal() + 6) % 7`). -/
def DT.weekday (t : DT) : Nat :=
  (ymd2ord t.year t.month t.day + 6) % 7

/-- The instant of `datetime.min` (`0001-01-01 00:00:00`, ordinal 1). -/
def dtMinInstant : ℤ := 86400

/-- `round(x, 2)` on exact rationals: round `100*x` to the nearest
integer (half up) and divide back.  (Python rounds exact halves to even;
no statement below depends on tie behaviour.) -/
def round2 (q : ℚ) : ℚ := ((q * 100 + 1/2).floor : ℚ) / 100

/-! ## Python string primitives on the program's alphabets -/

/-- Python `str.lower` restricted to the alphabets the program handles:
ASCII `A`–`Z` and Cyrillic `А`–`Я` (U+0410–U+042F) map down by 0x20,
`Ё` (U+0401) maps to `ё` (U+0451); every other character is unchanged. -/
def pyLowerChar (c : Char) : Char :=
  if 0x41 ≤ c.toNat ∧ c.toNat ≤ 0x5A then Char.ofNat (c.toNat + 0x20)
  else if 0x410 ≤ c.toNat ∧ c.toNat ≤ 0x42F then Char.ofNat (c.toNat + 0x20)
  else if c.toNat = 0x401 then Char.ofNat 0x451
  else c

/-- Python `str.lower` on a whole string. -/
def pyLower (s : String) : String := String.mk (s.data.map pyLowerChar)

/-- The whitespace class of Python's `\s` (and of `str.strip`), restricted
to the ASCII whitespace characters occurring in the program's data. -/
def isSpaceCh (c : Char) : Bool :=
  c == ' ' || c == '\t' || c == '\n' || c == '\r' || c == '\x0b' || c == '\x0c'

/-- ASCII decimal digit, the `\d` class on the program's data. -/
def isDigitCh (c : Char) : Bool :=
  decide ('0' ≤ c) && decide (c ≤ '9')

/-- Python `str.strip()` (whitespace from both ends). -/
def pyStrip (s : String) : String :=
  String.mk ((((s.data.dropWhile isSpaceCh).reverse).dropWhile isSpaceCh).reverse)

/-! ## Record types -/

/-- A row of the transactions `DataFrame` (columns used by `utils.py` /
`reports.py`): parsed operation datetime, status, signed amount, category,
description, optional card number, and the recorded per-transaction
cashback column (present in the data; ignored by `calculate_cards_data`). -/
structure Txn where
  date : DT
  status : String
  amount : ℚ
  category : String
  descr : String
  card : Option String
  cashbackRec : ℚ
  deriving DecidableEq, Repr

/-- A transaction dictionary as consumed by `services.py`: the date is the
result of `datetime.strptime` on the `Дата операции` field (`none` models
an unparseable date, which those functions skip), missing text fields are
the empty string, missing numeric fields are 0. -/
structure RawTxn where
  date : Option DT
  status : String
  amount : ℚ
  category : String
  descr : String
  rounding : ℚ
  deriving DecidableEq, Repr

/-! ## `utils.get_date_range` -/

/-- `utils.get_date_range`: start and end instants of the window for a
period tag relative to `t`.  `W` subtracts `t.weekday()` calendar days
(`pd.DateOffset(days=…)`, keeping the time of day), `M`/`Y` use
`replace(day=1)` / `replace(month=1, day=1)` (also keeping the time of
day), `ALL` starts at `datetime.min`, and any other tag means one day. -/
def get_date_range (t : DT) (period : String) : ℤ × ℤ :=
  if period = "W" then (t.instant - t.weekday * 86400, t.instant)
  else if period = "M" then ((DT.mk t.year t.month 1 t.secs).instant, t.instant)
  else if period = "Y" then ((DT.mk t.year 1 1 t.secs).instant, t.instant)
  else if period = "ALL" then (dtMinInstant, t.instant)
  else (t.instant, t.instant)

/-- Membership of an instant in an inclusive window. -/
def inWindow (x : ℤ) (w : ℤ × ℤ) : Prop := w.1 ≤ x ∧ x ≤ w.2

instance (x : ℤ) (w : ℤ × ℤ) : Decidable (inWindow x w) := by
  unfold inWindow; infer_instance

/-! ## `utils.calculate_cards_data` -/

/-- One entry of the card summary produced by `calculate_cards_data`. -/
structure CardSummary where
  last_digits : String
  total_spent : ℚ
  cashback : ℚ
  deriving DecidableEq, Repr

/-- Python `card_number[-4:]`: the last four characters (the whole string
when it is shorter). -/
def lastFour (s : String) : String :=
  String.mk (s.data.drop (s.data.length - 4))

/-- The rows retained by `calculate_cards_data` before grouping:
status `OK` and negative amount. -/
def cardExpenseRows (txns : List Txn) : List Txn :=
  txns.filter (fun t => t.status == "OK" && decide (t.amount < 0))

/-- The group keys of `groupby("Номер карты")`: the distinct non-null card
numbers of the retained rows, in ascending order (pandas sorts group keys). -/
def cardKeys (txns : List Txn) : List String :=
  (((cardExpenseRows txns).filterMap (fun t => t.card)).dedup).mergeSort
    (fun a b => a ≤ b)

/-- `utils.calculate_cards_data`: per card, `total_spent` is the sum of
the group's (negative) amounts times −1, rounded to 2 decimals in the
output; `cashback` is `round(total_spent / 100, 2)` computed from the
unrounded `total_spent` (1% of expenses, one rouble per 100). -/
def calculate_cards_data (txns : List Txn) : List CardSummary :=
  (cardKeys txns).map (fun c =>
    let spent : ℚ :=
      -(((cardExpenseRows txns).filter (fun t => t.card == some c)).map
          (fun t => t.amount)).sum
    { last_digits := lastFour c
      total_spent := round2 spent
      cashback := round2 (spent / 100) })

/-! ## `utils.get_stock_prices` (pure model) -/

/-- The parsed content of `stock_cache.json`. -/
structure StockCache where
  date : String
  stocks : List (String × ℚ)
  deriving DecidableEq, Repr

/-- Lookup in an association list (first match), the model of reading a
Python dict built by the insert/overwrite operations below. -/
def lookupA (l : List (String × ℚ)) (k : String) : Option ℚ :=
  (l.find? (fun p => p.1 == k)).map (fun p => p.2)

/-- Python `dict[k] = v`: overwrite the first binding of `k`, or append. -/
def upsert (l : List (String × ℚ)) (k : String) (v : ℚ) : List (String × ℚ) :=
  match l with
  | [] => [(k, v)]
  | (k', v') :: r => if k' == k then (k, v) :: r else (k', v') :: upsert r k v

/-- `existing_prices_by_symbol`: read from the cache only when the cache
file exists and its `date` equals today's date string; each well-formed
stock item is entered into the dict in order. -/
def existingPrices (cache : Option StockCache) (today : String) :
    List (String × ℚ) :=
  match cache with
  | none => []
  | some c =>
    if c.date == today then
      c.stocks.foldl (fun acc it => upsert acc it.1 it.2) []
    else []

/-- `missing_or_broken`: configured symbols that are absent from the
same-day cache or carry the zero-price sentinel. -/
def missingOrBroken (userStocks : List String) (existing : List (String × ℚ)) :
    List String :=
  userStocks.filter (fun s =>
    decide (lookupA existing s = none) || decide (lookupA existing s = some 0))

/-- The fetch loop: one remote request per missing/broken symbol, in order;
a failed fetch (`none`) stores the zero-price sentinel. -/
def fetchLoop (fetch : String → Option ℚ) (missing : List String) :
    List (String × ℚ) :=
  missing.foldl (fun acc s => upsert acc s ((fetch s).getD 0)) []

/-- One iteration of the preservation loop of `get_stock_prices`: skip the
symbol when it is absent from the cache or already updated; carry its
cached price over when that price is nonzero and the symbol is not marked
missing/broken. -/
def preserveStep (existing : List (String × ℚ)) (missing : List String)
    (acc : List (String × ℚ)) (s : String) : List (String × ℚ) :=
  if (lookupA existing s).isNone || (lookupA acc s).isSome then acc
  else if ((lookupA existing s).getD 0 != 0) && !(missing.contains s) then
    upsert acc s ((lookupA existing s).getD 0)
  else acc

/-- The preservation loop: for each configured symbol that is in the cache,
was not just fetched, is not zero-priced and not marked missing/broken,
carry its cached price over. -/
def preserveLoop (userStocks : List String) (existing : List (String × ℚ))
    (missing : List String) (acc0 : List (String × ℚ)) : List (String × ℚ) :=
  userStocks.foldl (preserveStep existing missing) acc0

/-- A configured symbol whose same-day cached price is present, nonzero
and not marked missing/broken: the preservation loop keeps it. -/
def goodSym (existing : List (String × ℚ)) (missing : List String)
    (k : String) : Prop :=
  lookupA existing k ≠ none ∧ (lookupA existing k).getD 0 ≠ 0 ∧ k ∉ missing

instance (existing : List (String × ℚ)) (missing : List String) (k : String) :
    Decidable (goodSym existing missing k) := by
  unfold goodSym; infer_instance

/-- `utils.get_stock_prices`, as a pure function of the configured symbols,
the parsed cache file, today's date string and the remote quote provider
(modelled as `fetch : symbol → Option price`; `none` is any failed or
malformed fetch).  Returns the final `[{stock, price}]` list (which is also
the `stocks` field of the rewritten cache file) and the list of symbols for
which a remote request was made. -/
def get_stock_prices (userStocks : List String) (cache : Option StockCache)
    (today : String) (fetch : String → Option ℚ) :
    List (String × ℚ) × List String :=
  let existing := existingPrices cache today
  let missing := missingOrBroken userStocks existing
  let updated := preserveLoop userStocks existing missing (fetchLoop fetch missing)
  (userStocks.map (fun s => (s, (lookupA updated s).getD 0)), missing)

/-! ## `reports.spending_by_category` and `reports.spending_by_weekday` -/

/-- A row of the category report: the four projected columns. -/
structure CatRow where
  date : DT
  amount : ℚ
  category : String
  descr : String
  deriving DecidableEq, Repr

/-- Projection of a transaction row to the report columns
`[Дата операции, Сумма операции, Категория, Описание]`. -/
def Txn.toCatRow (t : Txn) : CatRow :=
  { date := t.date, amount := t.amount, category := t.category, descr := t.descr }

/-- `reports.spending_by_category`: keep rows whose datetime lies in
`[target − 90 days, target]`, whose lower-cased category equals the
lower-cased argument, and whose amount is negative; project the four
report columns.  (No status filter appears in this report.) -/
def spending_by_category (txns : List Txn) (category : String) (target : DT) :
    List CatRow :=
  (txns.filter (fun t =>
      decide (target.instant - 90 * 86400 ≤ t.date.instant) &&
      decide (t.date.instant ≤ target.instant) &&
      (pyLower t.category == pyLower category) &&
      decide (t.amount < 0))).map Txn.toCatRow

/-- The rows retained by `spending_by_weekday`: window, negative amount
and status `OK`. -/
def weekdayRetained (txns : List Txn) (target : DT) : List Txn :=
  txns.filter (fun t =>
    decide (target.instant - 90 * 86400 ≤ t.date.instant) &&
    decide (t.date.instant ≤ target.instant) &&
    decide (t.amount < 0) &&
    (t.status == "OK"))

/-- The seven weekday names emitted by the report, Monday first. -/
def weekdayNames : List String :=
  ["Понедельник", "Вторник", "Среда", "Четверг", "Пятница", "Суббота",
   "Воскресенье"]

/-- `reports.spending_by_weekday`: group the retained rows by
`dayofweek`, sum each group's (negative) amounts, take the absolute value
and round to 2 decimals; every weekday absent from the grouping
contributes `0.0`. -/
def spending_by_weekday (txns : List Txn) (target : DT) : List (String × ℚ) :=
  (List.range 7).map (fun i =>
    (weekdayNames.getD i "",
     round2 |(((weekdayRetained txns target).filter
         (fun t => t.date.weekday == i)).map (fun t => t.amount)).sum|))

/-! ## `services.simple_search` -/

/-- Python `needle in haystack` on strings: contiguous substring test. -/
def strContains (haystack needle : String) : Bool :=
  decide (needle.data <:+: haystack.data)

/-- `services.simple_search`: keep the transactions whose lower-cased
description or lower-cased category contains the lower-cased query.
(The JSON serialisation of the result list is outside the model.) -/
def simple_search (query : String) (txns : List RawTxn) : List RawTxn :=
  txns.filter (fun t =>
    strContains (pyLower t.descr) (pyLower query) ||
    strContains (pyLower t.category) (pyLower query))

/-! ## `services.investment_bank` -/

/-- The per-record test of `investment_bank` for target month `m`/year `y`:
parseable date in that month, status `OK`, negative amount.  Records whose
date failed to parse are skipped (`none`). -/
def investQualifies (m y : Nat) (t : RawTxn) : Bool :=
  match t.date with
  | none => false
  | some d => d.month == m && d.year == y && t.status == "OK" &&
      decide (t.amount < 0)

/-- `services.investment_bank` (with the target month already parsed into
month `m` and year `y`): accumulate the precomputed
`Округление на инвесткопилку` column of each qualifying record and round
the total to 2 decimals. -/
def investment_bank (m y : Nat) (txns : List RawTxn) : ℚ :=
  round2 (txns.foldl
    (fun acc t => if investQualifies m y t then acc + t.rounding else acc) 0)

/-! ## `services.analyze_cashback_categories` -/

/-- The per-record test of `analyze_cashback_categories`: parseable date in
the target year/month, status `OK`, non-empty category. -/
def cashbackQualifies (y m : Nat) (t : RawTxn) : Bool :=
  match t.date with
  | none => false
  | some d => d.year == y && d.month == m && t.status == "OK" &&
      (t.category != "")

/-- Add `v` to the binding of `k` in an association list, appending a new
binding when `k` is absent — the model of
`dict[k] += v` / `dict[k] = v` on an insertion-ordered Python dict. -/
def addTo : List (String × ℚ) → String → ℚ → List (String × ℚ)
  | [], k, v => [(k, v)]
  | (k', v') :: r, k, v =>
    if k' == k then (k', v' + v) :: r else (k', v') :: addTo r k v

/-- The accumulation dict `cashback_per_category`: categories in
first-encountered order, each mapped to the accumulated
`abs(amount) * 0.10`. -/
def cashbackAcc (data : List RawTxn) (y m : Nat) : List (String × ℚ) :=
  data.foldl (fun acc t =>
    if cashbackQualifies y m t then addTo acc t.category (|t.amount| * 0.1)
    else acc) []

/-- The comparator of `sorted(…, key=lambda item: item[1], reverse=True)`:
descending by accumulated value; Python's sort is stable. -/
def byValueDesc (a b : String × ℚ) : Bool := decide (b.2 ≤ a.2)

/-- `services.analyze_cashback_categories` (with the JSON serialisation
outside the model): sort the accumulated dict items by value descending
with a stable sort, then round each value to 2 decimals. -/
def analyze_cashback_categories (data : List RawTxn) (y m : Nat) :
    List (String × ℚ) :=
  ((cashbackAcc data y m).mergeSort byValueDesc).map
    (fun p => (p.1, round2 p.2))

/-! ## Regex matchers of `services.py` -/

/-- `[\s-]`: one whitespace character or a hyphen. -/
def isSepCh (c : Char) : Bool := isSpaceCh c || c == '-'

/-- `[А-ЯЁ]`: Cyrillic capital letter (U+0410–U+042F or Ё U+0401). -/
def isCyrUpper (c : Char) : Bool :=
  (decide (0x410 ≤ c.toNat) && decide (c.toNat ≤ 0x42F)) || c.toNat == 0x401

/-- `[а-яё]`: Cyrillic small letter (U+0430–U+044F or ё U+0451). -/
def isCyrLower (c : Char) : Bool :=
  (decide (0x430 ≤ c.toNat) && decide (c.toNat ≤ 0x44F)) || c.toNat == 0x451

/-- `p+` followed by continuation `k`: one or more characters of class `p`,
then the rest must satisfy `k` — with backtracking, as a regex engine. -/
def plus1 (p : Char → Bool) (k : List Char → Bool) : List Char → Bool
  | [] => false
  | c :: r => p c && (k r || plus1 p k r)

/-- `p{n}` followed by continuation `k`: exactly `n` characters of class
`p`, then the rest must satisfy `k`. -/
def exactN (p : Char → Bool) : Nat → (List Char → Bool) → List Char → Bool
  | 0, k, l => k l
  | _ + 1, _, [] => false
  | n + 1, k, c :: r => p c && exactN p n k r

/-- A single character of class `p`, then `k`. -/
def one (p : Char → Bool) (k : List Char → Bool) : List Char → Bool
  | [] => false
  | c :: r => p c && k r

/-- The phone pattern `\+7\s+\d{3}\s+\d{3}[\s-]\d{2}[\s-]\d{2}` anchored at
the start of the character list. -/
def phoneAt : List Char → Bool
  | a :: b :: r =>
    a == '+' && b == '7' &&
    plus1 isSpaceCh (exactN isDigitCh 3 (plus1 isSpaceCh (exactN isDigitCh 3
      (one isSepCh (exactN isDigitCh 2 (one isSepCh (exactN isDigitCh 2
        (fun _ => true)))))))) r
  | _ => false

/-- `re.search` with the phone pattern: a match starting anywhere. -/
def phoneFound (s : String) : Bool := s.data.tails.any phoneAt

/-- The person-name pattern `[А-ЯЁ][а-яё]+\s+[А-ЯЁ]\.` anchored at the
start of the character list. -/
def nameAt : List Char → Bool
  | c :: r =>
    isCyrUpper c && plus1 isCyrLower (plus1 isSpaceCh (one isCyrUpper
      (one (fun d => d == '.') (fun _ => true)))) r
  | [] => false

/-- `re.search` with the person-name pattern: a match starting anywhere. -/
def nameFound (s : String) : Bool := s.data.tails.any nameAt

/-- `services.search_transactions_by_phone_numbers`: keep the transactions
whose description contains the phone pattern. -/
def search_transactions_by_phone_numbers (txns : List RawTxn) : List RawTxn :=
  txns.filter (fun t => phoneFound t.descr)

/-- `services.search_transfers_to_individuals`: keep the transactions whose
stripped, lower-cased category equals `"переводы"` and whose description
contains the person-name pattern. -/
def search_transfers_to_individuals (txns : List RawTxn) : List RawTxn :=
  txns.filter (fun t =>
    (pyLower (pyStrip t.category) == "переводы") && nameFound t.descr)

/-! ## Declarative forms of the two regex patterns (from the claims) -/

/-- The claim's description of the phone pattern: the character list
contains a substring of the form `+7`, whitespace, three digits,
whitespace, three digits, space-or-hyphen, two digits, space-or-hyphen,
two digits. -/
def PhoneSub (l : List Char) : Prop :=
  ∃ (pre sp1 d1 sp2 d2 : List Char) (s1 : Char) (d3 : List Char) (s2 : Char)
      (d4 post : List Char),
    l = pre ++ '+' :: '7' ::
        (sp1 ++ (d1 ++ (sp2 ++ (d2 ++ s1 :: (d3 ++ s2 :: (d4 ++ post)))))) ∧
    sp1 ≠ [] ∧ (∀ c ∈ sp1, isSpaceCh c) ∧
    d1.length = 3 ∧ (∀ c ∈ d1, isDigitCh c) ∧
    sp2 ≠ [] ∧ (∀ c ∈ sp2, isSpaceCh c) ∧
    d2.length = 3 ∧ (∀ c ∈ d2, isDigitCh c) ∧
    isSepCh s1 ∧ d3.length = 2 ∧ (∀ c ∈ d3, isDigitCh c) ∧
    isSepCh s2 ∧ d4.length = 2 ∧ (∀ c ∈ d4, isDigitCh c)

/-- The claim's description of the person-name pattern: the character list
contains one capitalized word (a capital letter followed by at least one
small letter), whitespace, and one capital letter followed by a period. -/
def NameSub (l : List Char) : Prop :=
  ∃ (pre : List Char) (u1 : Char) (w sp : List Char) (u2 : Char)
      (post : List Char),
    l = pre ++ u1 :: (w ++ (sp ++ u2 :: '.' :: post)) ∧
    isCyrUpper u1 ∧ w ≠ [] ∧ (∀ c ∈ w, isCyrLower c) ∧
    sp ≠ [] ∧ (∀ c ∈ sp, isSpaceCh c) ∧ isCyrUpper u2

/-! ## Claim-side helper definitions -/

/-- The retention condition of `spending_by_category`, written as a
proposition (note: no status condition appears in the source). -/
def catRetains (category : String) (target : DT) (t : Txn) : Prop :=
  target.instant - 90 * 86400 ≤ t.date.instant ∧
  t.date.instant ≤ target.instant ∧
  pyLower t.category = pyLower category ∧ t.amount < 0

/-- The sign-flipped total spent on one card: the negated sum of the
amounts of the success-status, negative-amount rows carrying that card. -/
def cardSpent (txns : List Txn) (c : String) : ℚ :=
  -(((txns.filter (fun t =>
      t.status == "OK" && decide (t.amount < 0) && (t.card == some c))).map
        (fun t => t.amount)).sum)




/-! ## Claim C10: `simple_search` with the empty query -/

/-- C10: for every transaction list, `simple_search` with the empty string
as query returns the entire input list unchanged in order, since the empty
string is a substring of every (lower-cased) description and category. -/
theorem simple_search_empty_query (txns : List RawTxn) :
    simple_search "" txns = txns := by
  unfold simple_search
  apply List.filter_eq_self.mpr
  intro t _
  have h1 : pyLower "" = "" := rfl
  have h2 : strContains (pyLower t.descr) "" = true :=
    decide_eq_true List.nil_infix
  rw [h1, h2, Bool.true_or]

/-! ## Claim C1: `spending_by_category` -/

/-- C1 (amended): `spending_by_category` returns exactly the (projected)
records whose amount is negative, whose timestamp lies in
`[reference − 90 days, reference]`, and whose category matches the given
category case-insensitively — the source applies no status filter — and
two calls differing only in the case of the category argument return
identical record lists. -/
theorem spending_by_category_spec (txns : List Txn) (category : String)
    (target : DT) :
    (∀ r, r ∈ spending_by_category txns category target ↔
      ∃ t, t ∈ txns ∧ catRetains category target t ∧ r = t.toCatRow) ∧
    (∀ c', pyLower category = pyLower c' →
      spending_by_category txns category target =
        spending_by_category txns c' target) := by
  constructor
  · intro r
    simp only [spending_by_category, List.mem_map, List.mem_filter,
      Bool.and_eq_true, decide_eq_true_eq, beq_iff_eq, catRetains]
    constructor
    · rintro ⟨t, ⟨ht, ⟨⟨⟨h1, h2⟩, h3⟩, h4⟩⟩, rfl⟩
      exact ⟨t, ht, ⟨h1, h2, h3, h4⟩, rfl⟩
    · rintro ⟨t, ht, ⟨h1, h2, h3, h4⟩, rfl⟩
      exact ⟨t, ⟨ht, ⟨⟨⟨h1, h2⟩, h3⟩, h4⟩⟩, rfl⟩
  · intro c' h
    unfold spending_by_category
    rw [h]

/-- C1 witness: the case-insensitivity conclusion applied at a concrete
transaction set and the category pair `"Еда"` / `"еДа"`. -/
theorem spending_by_category_spec_witness :
    spending_by_category
      [{ date := ⟨2020, 9, 15, 0⟩, status := "OK", amount := -100,
         category := "Еда", descr := "x", card := none, cashbackRec := 0 }]
      "Еда" ⟨2020, 10, 15, 0⟩ =
    spending_by_category
      [{ date := ⟨2020, 9, 15, 0⟩, status := "OK", amount := -100,
         category := "Еда", descr := "x", card := none, cashbackRec := 0 }]
      "еДа" ⟨2020, 10, 15, 0⟩ :=
  (spending_by_category_spec _ "Еда" ⟨2020, 10, 15, 0⟩).2 "еДа" (by decide)

/-- C1 counterexample: a record whose status is not the success sentinel
`"OK"` is nevertheless returned by `spending_by_category`, so the claim's
status condition does not hold of the code. -/
theorem spending_by_category_counterexample :
    spending_by_category
      [{ date := ⟨2020, 9, 15, 0⟩, status := "FAILED", amount := -100,
         category := "Еда", descr := "x", card := none, cashbackRec := 0 }]
      "Еда" ⟨2020, 10, 15, 0⟩ =
    [{ date := ⟨2020, 9, 15, 0⟩, amount := -100, category := "Еда",
       descr := "x" }] ∧
    ("FAILED" : String) ≠ "OK" := by decide

/-! ## Claim C7: `investment_bank` -/

/-- The accumulation loop of `investment_bank` equals the sum of the
round-up column over the qualifying records. -/
theorem investment_foldl_eq (q : RawTxn → Bool) :
    ∀ (l : List RawTxn) (acc : ℚ),
    l.foldl (fun a t => if q t then a + t.rounding else a) acc =
      acc + ((l.filter q).map (fun t => t.rounding)).sum := by
  intro l
  induction l with
  | nil => intro acc; simp
  | cons t l ih =>
    intro acc
    by_cases hq : q t
    · simp only [List.foldl_cons, hq, if_pos, List.filter_cons_of_pos hq,
        List.map_cons, List.sum_cons, ih]
      ring
    · simp only [List.foldl_cons, hq, if_neg, List.filter_cons_of_neg hq, ih,
        Bool.false_eq_true, ite_false]

/-- C7: `investment_bank` sums only the precomputed round-up amounts of
success-status, negative-amount records of the target month, and appending
records dated in other months leaves the total unchanged. -/
theorem investment_bank_spec (m y : Nat) (txns extra : List RawTxn) :
    investment_bank m y txns =
      round2 (((txns.filter (investQualifies m y)).map
        (fun t => t.rounding)).sum) ∧
    ((∀ t ∈ extra, ∃ d, t.date = some d ∧ (d.month ≠ m ∨ d.year ≠ y)) →
      investment_bank m y (txns ++ extra) = investment_bank m y txns) := by
  constructor
  · unfold investment_bank
    rw [investment_foldl_eq, zero_add]
  · intro h
    have hextra : extra.filter (investQualifies m y) = [] := by
      apply List.filter_eq_nil_iff.mpr
      intro t ht
      obtain ⟨d, hd, hmy⟩ := h t ht
      unfold investQualifies
      rw [hd]
      simp only [Bool.and_eq_true, beq_iff_eq, decide_eq_true_eq]
      rintro ⟨⟨⟨h1, h2⟩, _⟩, _⟩
      rcases hmy with hm | hy
      · exact hm h1
      · exact hy h2
    unfold investment_bank
    rw [investment_foldl_eq, investment_foldl_eq, List.filter_append, hextra,
      List.append_nil]

/-- C7 witness: appending one October-2020 record does not change the
September-2020 round-up total. -/
theorem investment_bank_spec_witness :
    investment_bank 9 2020
      ([{ date := some ⟨2020, 9, 15, 0⟩, status := "OK", amount := -100,
          category := "", descr := "", rounding := 12.5 }] ++
       [{ date := some ⟨2020, 10, 2, 0⟩, status := "OK", amount := -50,
          category := "", descr := "", rounding := 7.25 }]) =
    investment_bank 9 2020
      [{ date := some ⟨2020, 9, 15, 0⟩, status := "OK", amount := -100,
         category := "", descr := "", rounding := 12.5 }] :=
  (investment_bank_spec 9 2020 _ _).2 (by
    intro t ht
    rw [List.mem_singleton] at ht
    subst ht
    exact ⟨⟨2020, 10, 2, 0⟩, rfl, by decide⟩)

/-! ## Claim C2: `get_date_range` windows -/

/-- C2 (amended): for every valid reference datetime and every period tag
the window's start never exceeds its end, and the windows nest as
Day ⊆ Week, Day ⊆ Month ⊆ Year ⊆ All and Week ⊆ All.  (Week ⊆ Month fails
in the source when the week's Monday falls in the previous month; see the
counterexample.) -/
theorem get_date_range_spec (t : DT) (h : t.Valid) :
    (∀ p, (get_date_range t p).1 ≤ (get_date_range t p).2) ∧
    (∀ x, inWindow x (get_date_range t "D") → inWindow x (get_date_range t "W")) ∧
    (∀ x, inWindow x (get_date_range t "D") → inWindow x (get_date_range t "M")) ∧
    (∀ x, inWindow x (get_date_range t "M") → inWindow x (get_date_range t "Y")) ∧
    (∀ x, inWindow x (get_date_range t "Y") → inWindow x (get_date_range t "ALL")) ∧
    (∀ x, inWindow x (get_date_range t "W") → inWindow x (get_date_range t "ALL")) := by
  obtain ⟨hy, hm1, hm2, hd1, hd2, hs⟩ := h
  have hord1 : 1 ≤ ymd2ord t.year t.month t.day := by unfold ymd2ord; omega
  have hmstart : ymd2ord t.year t.month 1 ≤ ymd2ord t.year t.month t.day := by
    unfold ymd2ord; omega
  have hystart : ymd2ord t.year 1 1 ≤ ymd2ord t.year t.month 1 := by
    have h1 : daysBeforeMonth t.year 1 = 0 := rfl
    unfold ymd2ord; omega
  have hwd : t.weekday + 1 ≤ ymd2ord t.year t.month t.day := by
    unfold DT.weekday; omega
  have h0 : (0 : ℤ) ≤ (t.weekday : ℤ) * 86400 :=
    mul_nonneg (Int.natCast_nonneg _) (by norm_num)
  have eD : get_date_range t "D" = (t.instant, t.instant) := by
    simp [get_date_range]
  have eW : get_date_range t "W" =
      (t.instant - t.weekday * 86400, t.instant) := by
    simp [get_date_range]
  have eM : get_date_range t "M" =
      ((DT.mk t.year t.month 1 t.secs).instant, t.instant) := by
    simp [get_date_range]
  have eY : get_date_range t "Y" =
      ((DT.mk t.year 1 1 t.secs).instant, t.instant) := by
    simp [get_date_range]
  have eA : get_date_range t "ALL" = (dtMinInstant, t.instant) := by
    simp [get_date_range]
  have hwk : (t.weekday : ℤ) * 86400 + 86400 ≤ t.instant := by
    unfold DT.instant; omega
  refine ⟨?_, ?_, ?_, ?_, ?_, ?_⟩
  · intro p
    unfold get_date_range
    split_ifs
    · simp only
      omega
    · simp only [DT.instant]
      omega
    · simp only [DT.instant]
      have := le_trans hystart hmstart
      omega
    · simp only [dtMinInstant, DT.instant]
      omega
    · exact le_refl _
  · rw [eD, eW]
    rintro x ⟨hx1, hx2⟩
    exact ⟨by omega, hx2⟩
  · rw [eD, eM]
    rintro x ⟨hx1, hx2⟩
    refine ⟨?_, hx2⟩
    have : (DT.mk t.year t.month 1 t.secs).instant ≤ t.instant := by
      simp only [DT.instant]
      omega
    omega
  · rw [eM, eY]
    rintro x ⟨hx1, hx2⟩
    refine ⟨?_, hx2⟩
    have : (DT.mk t.year 1 1 t.secs).instant ≤
        (DT.mk t.year t.month 1 t.secs).instant := by
      simp only [DT.instant]
      omega
    omega
  · rw [eY, eA]
    rintro x ⟨hx1, hx2⟩
    refine ⟨?_, hx2⟩
    have h2 : 1 ≤ ymd2ord t.year 1 1 := by unfold ymd2ord; omega
    have : dtMinInstant ≤ (DT.mk t.year 1 1 t.secs).instant := by
      simp only [DT.instant, dtMinInstant]
      omega
    omega
  · rw [eW, eA]
    rintro x ⟨hx1, hx2⟩
    refine ⟨?_, hx2⟩
    simp only [dtMinInstant]
    omega

/-- C2 witness: the amended nesting applied at the concrete reference
datetime `15.10.2020 00:00:00`. -/
theorem get_date_range_spec_witness :
    (get_date_range ⟨2020, 10, 15, 0⟩ "M").1 ≤
      (get_date_range ⟨2020, 10, 15, 0⟩ "M").2 :=
  (get_date_range_spec ⟨2020, 10, 15, 0⟩ (by decide)).1 "M"

/-- C2 counterexample: at the reference datetime `01.08.2021 00:00:00`
(a Sunday) the start of the Week window lies outside the Month window, so
the chain Day ⊆ Week ⊆ Month ⊆ Year ⊆ All claimed for the code fails at
Week ⊆ Month. -/
theorem get_date_range_counterexample :
    inWindow ((get_date_range ⟨2021, 8, 1, 0⟩ "W").1)
      (get_date_range ⟨2021, 8, 1, 0⟩ "W") ∧
    ¬ inWindow ((get_date_range ⟨2021, 8, 1, 0⟩ "W").1)
      (get_date_range ⟨2021, 8, 1, 0⟩ "M") := by decide

/-! ## Claim C6: `spending_by_weekday` -/

/-- The absolute value of a sum of nonpositive rationals is the sum of the
absolute values (the groupwise sums of `spending_by_weekday` range over
negative amounts only). -/
theorem sum_abs_of_nonpos :
    ∀ l : List ℚ, (∀ x ∈ l, x ≤ 0) →
      l.sum ≤ 0 ∧ |l.sum| = (l.map (fun x => |x|)).sum := by
  intro l
  induction l with
  | nil => intro _; simp
  | cons a l ih =>
    intro h
    have ha : a ≤ 0 := h a (List.mem_cons_self a l)
    obtain ⟨hs, habs⟩ := ih (fun x hx => h x (List.mem_cons_of_mem a hx))
    constructor
    · rw [List.sum_cons]
      linarith
    · rw [List.sum_cons, List.map_cons, List.sum_cons, ← habs,
        abs_of_nonpos (by linarith : a + l.sum ≤ 0), abs_of_nonpos ha,
        abs_of_nonpos hs]
      ring

/-- C6: the weekday report emits exactly the 7 named weekdays in order
Monday..Sunday; each value is the two-decimal rounding of the sum of
absolute amounts of the retained records on that weekday; weekdays with no
retained record map to 0; and the spec's end-to-end example holds. -/
theorem spending_by_weekday_spec (txns : List Txn) (target : DT) :
    ((spending_by_weekday txns target).map Prod.fst = weekdayNames) ∧
    ((spending_by_weekday txns target).length = 7) ∧
    (spending_by_weekday txns target = (List.range 7).map (fun i =>
      (weekdayNames.getD i "",
       round2 ((((weekdayRetained txns target).filter
           (fun t => t.date.weekday == i)).map (fun t => |t.amount|)).sum)))) ∧
    (∀ i, i < 7 →
      (weekdayRetained txns target).filter (fun t => t.date.weekday == i) = [] →
      (spending_by_weekday txns target).getD i ("", 0) =
        (weekdayNames.getD i "", 0)) ∧
    (spending_by_weekday
      [{ date := ⟨2020, 9, 15, 0⟩, status := "OK", amount := -100,
         category := "Еда", descr := "", card := none, cashbackRec := 0 },
       { date := ⟨2020, 9, 16, 0⟩, status := "OK", amount := 500,
         category := "Зарплата", descr := "", card := none, cashbackRec := 0 }]
      ⟨2020, 10, 15, 0⟩ =
      [("Понедельник", 0), ("Вторник", 100), ("Среда", 0), ("Четверг", 0),
       ("Пятница", 0), ("Суббота", 0), ("Воскресенье", 0)]) := by
  have habs : ∀ i : Nat,
      |(((weekdayRetained txns target).filter
          (fun t => t.date.weekday == i)).map (fun t => t.amount)).sum| =
      (((weekdayRetained txns target).filter
          (fun t => t.date.weekday == i)).map (fun t => |t.amount|)).sum := by
    intro i
    have hneg : ∀ x ∈ ((weekdayRetained txns target).filter
        (fun t => t.date.weekday == i)).map (fun t => t.amount), x ≤ 0 := by
      intro x hx
      obtain ⟨t, ht, rfl⟩ := List.mem_map.mp hx
      have ht' := (List.mem_filter.mp ht).1
      have hcond := (List.mem_filter.mp ht').2
      simp only [Bool.and_eq_true, decide_eq_true_eq] at hcond
      exact le_of_lt hcond.1.2
    have := sum_abs_of_nonpos _ hneg
    rw [this.2, List.map_map]
    rfl
  have hmain : spending_by_weekday txns target = (List.range 7).map (fun i =>
      (weekdayNames.getD i "",
       round2 ((((weekdayRetained txns target).filter
           (fun t => t.date.weekday == i)).map (fun t => |t.amount|)).sum))) := by
    unfold spending_by_weekday
    apply List.map_congr_left
    intro i _
    rw [habs i]
  refine ⟨?_, ?_, hmain, ?_, ?_⟩
  · unfold spending_by_weekday
    rw [List.map_map]
    calc (List.range 7).map _
        = (List.range 7).map (fun i => weekdayNames.getD i "") :=
          List.map_congr_left (fun i _ => rfl)
      _ = weekdayNames := by decide
  · unfold spending_by_weekday
    rw [List.length_map, List.length_range]
  · intro i hi hempty
    rw [hmain, List.getD_eq_getElem?_getD, List.getElem?_map,
      List.getElem?_range hi]
    simp only [Option.map_some', Option.getD_some]
    rw [hempty]
    simp only [List.map_nil, List.sum_nil]
    rw [show round2 0 = 0 from by decide]
  · decide

/-- C6 witness: the zero-default conclusion applied at weekday 3
(Thursday), which has no retained record in the concrete input. -/
theorem spending_by_weekday_spec_witness :
    (spending_by_weekday
      [{ date := ⟨2020, 9, 15, 0⟩, status := "OK", amount := -100,
         category := "Еда", descr := "", card := none, cashbackRec := 0 }]
      ⟨2020, 10, 15, 0⟩).getD 3 ("", 0) = (weekdayNames.getD 3 "", 0) :=
  (spending_by_weekday_spec _ ⟨2020, 10, 15, 0⟩).2.2.2.1 3 (by decide)
    (by decide)

/-! ## Claim C3: `calculate_cards_data` -/

/-- The group of one card inside the retained rows equals a single filter
over the original transaction set. -/
theorem cardGroup_eq (txns : List Txn) (c : String) :
    (cardExpenseRows txns).filter (fun t => t.card == some c) =
    txns.filter (fun t =>
      t.status == "OK" && decide (t.amount < 0) && (t.card == some c)) := by
  unfold cardExpenseRows
  rw [List.filter_filter]
  apply List.filter_congr
  intro t _
  exact Bool.and_comm _ _

/-- C3 (amended): the success-status, negative-amount records are grouped
by card number; each output row reports the last four digits of its card,
`total_spent` is the two-decimal rounding of the sign-flipped sum of the
group's amounts, and `cashback` is the two-decimal rounding of 1% of that
(unrounded) total — not the sum of the recorded per-transaction cashback
column; every card occurring on a qualifying record yields an output row. -/
theorem calculate_cards_data_spec (txns : List Txn) :
    (∀ row ∈ calculate_cards_data txns, ∃ c,
        row.last_digits = lastFour c ∧
        row.total_spent = round2 (cardSpent txns c) ∧
        row.cashback = round2 (cardSpent txns c / 100)) ∧
    (∀ t ∈ txns, t.status = "OK" → t.amount < 0 → ∀ c, t.card = some c →
      ∃ row ∈ calculate_cards_data txns, row.last_digits = lastFour c) := by
  have hspent : ∀ c : String,
      -(((cardExpenseRows txns).filter (fun t => t.card == some c)).map
          (fun t => t.amount)).sum = cardSpent txns c := by
    intro c
    unfold cardSpent
    rw [cardGroup_eq]
  constructor
  · intro row hrow
    simp only [calculate_cards_data, List.mem_map] at hrow
    obtain ⟨c, _, rfl⟩ := hrow
    exact ⟨c, rfl, by rw [← hspent c], by rw [← hspent c]⟩
  · intro t ht hok hneg c hcard
    have hmem : c ∈ cardKeys txns := by
      unfold cardKeys
      rw [(List.mergeSort_perm _ _).mem_iff, List.mem_dedup, List.mem_filterMap]
      refine ⟨t, ?_, hcard⟩
      unfold cardExpenseRows
      rw [List.mem_filter]
      exact ⟨ht, by simp [hok, hneg]⟩
    refine ⟨_, List.mem_map.mpr ⟨c, hmem, rfl⟩, rfl⟩

/-- C3 witness: the grouping conclusion applied at a one-record input. -/
theorem calculate_cards_data_spec_witness :
    ∃ row ∈ calculate_cards_data
      [{ date := ⟨2020, 9, 15, 0⟩, status := "OK", amount := -100,
         category := "", descr := "", card := some "1234567890123456",
         cashbackRec := 5 }], row.last_digits = lastFour "1234567890123456" :=
  (calculate_cards_data_spec _).2 _ (List.mem_singleton.mpr rfl) rfl
    (by norm_num) "1234567890123456" rfl

/-- C3 counterexample: for a single card group whose only transaction has
amount −100 and recorded cashback 5, the code reports `cashback = 1`
(1% of the spend), not the sum 5 of the recorded cashback column that the
claim describes. -/
theorem calculate_cards_data_counterexample :
    calculate_cards_data
      [{ date := ⟨2020, 9, 15, 0⟩, status := "OK", amount := -100,
         category := "", descr := "", card := some "1234567890123456",
         cashbackRec := 5 }] =
    [{ last_digits := "3456", total_spent := 100, cashback := 1 }] ∧
    ([({ date := ⟨2020, 9, 15, 0⟩, status := "OK", amount := -100,
         category := "", descr := "", card := some "1234567890123456",
         cashbackRec := 5 } : Txn)].map (fun t => t.cashbackRec)).sum = 5 ∧
    (1 : ℚ) ≠ 5 := by
  refine ⟨?_, by decide, by decide⟩
  unfold calculate_cards_data cardKeys
  rw [show ((cardExpenseRows
      [{ date := ⟨2020, 9, 15, 0⟩, status := "OK", amount := -100,
         category := "", descr := "", card := some "1234567890123456",
         cashbackRec := 5 }]).filterMap (fun t => t.card)).dedup =
      ["1234567890123456"] from by decide]
  rw [List.mergeSort_of_sorted (by simp)]
  decide

/-! ## Claim C5: `analyze_cashback_categories` -/

/-- Reading a dict after `addTo`: the updated key gains `v`, the other
keys are unchanged (absent keys read as 0). -/
theorem lookupA_addTo (k : String) (v : ℚ) :
    ∀ (l : List (String × ℚ)) (k' : String),
    (lookupA (addTo l k v) k').getD 0 =
      if k' = k then (lookupA l k').getD 0 + v
      else (lookupA l k').getD 0 := by
  intro l
  induction l with
  | nil =>
    intro k'
    by_cases h : k' = k
    · subst h; simp [lookupA, addTo, List.find?]
    · simp [lookupA, addTo, List.find?, beq_eq_false_iff_ne.mpr (Ne.symm h), h]
  | cons p l ih =>
    intro k'
    obtain ⟨a, b⟩ := p
    by_cases hak : a = k
    · subst hak
      have haddTo : addTo ((a, b) :: l) a v = (a, b + v) :: l := by
        simp [addTo]
      rw [haddTo]
      by_cases h : k' = a
      · subst h; simp [lookupA, List.find?]
      · simp [lookupA, List.find?, beq_eq_false_iff_ne.mpr (Ne.symm h), h]
    · have haddTo : addTo ((a, b) :: l) k v = (a, b) :: addTo l k v := by
        simp [addTo, hak]
      rw [haddTo]
      by_cases h : k' = a
      · subst h
        simp [lookupA, List.find?, hak]
      · have h1 : lookupA ((a, b) :: addTo l k v) k' = lookupA (addTo l k v) k' := by
          simp [lookupA, List.find?, beq_eq_false_iff_ne.mpr (Ne.symm h)]
        have h2 : lookupA ((a, b) :: l) k' = lookupA l k' := by
          simp [lookupA, List.find?, beq_eq_false_iff_ne.mpr (Ne.symm h)]
        rw [h1, h2, ih]

/-- Reading the accumulation dict of `analyze_cashback_categories`: each
category holds the sum of `abs(amount) * 0.10` over its qualifying
records. -/
theorem cashbackAcc_lookup (y m : Nat) :
    ∀ (data : List RawTxn) (acc : List (String × ℚ)) (cat : String),
    (lookupA (data.foldl (fun acc t =>
        if cashbackQualifies y m t then addTo acc t.category (|t.amount| * 0.1)
        else acc) acc) cat).getD 0 =
      (lookupA acc cat).getD 0 +
        ((data.filter (fun t =>
            cashbackQualifies y m t && (t.category == cat))).map
          (fun t => |t.amount| * 0.1)).sum := by
  intro data
  induction data with
  | nil => intro acc cat; simp
  | cons t rest ih =>
    intro acc cat
    rw [List.foldl_cons]
    by_cases hq : cashbackQualifies y m t
    · rw [if_pos hq, ih]
      by_cases hcat : t.category = cat
      · rw [List.filter_cons_of_pos (by simp [hq, hcat]), List.map_cons,
          List.sum_cons, lookupA_addTo, if_pos hcat.symm]
        ring
      · rw [List.filter_cons_of_neg (by simp [hq, hcat]), lookupA_addTo,
          if_neg (fun h => hcat h.symm)]
    · rw [if_neg hq, ih, List.filter_cons_of_neg (by simp [hq])]

/-- C5: the analyzer accumulates `abs(amount) * 0.10` per non-empty
category over the success-status records of the target month; its output
is the accumulation dict sorted by value descending (so the underlying
values are non-increasing along the output), exact ties keep the
first-encountered-category order (sort stability), values are rounded to
2 decimals after sorting, and the spec's single-record example holds. -/
theorem analyze_cashback_categories_spec (data : List RawTxn) (y m : Nat) :
    (((cashbackAcc data y m).mergeSort byValueDesc).Pairwise
        (fun a b => b.2 ≤ a.2)) ∧
    (∀ a b : String × ℚ, a.2 = b.2 → [a, b].Sublist (cashbackAcc data y m) →
        [a, b].Sublist ((cashbackAcc data y m).mergeSort byValueDesc)) ∧
    (analyze_cashback_categories data y m =
      ((cashbackAcc data y m).mergeSort byValueDesc).map
        (fun p => (p.1, round2 p.2))) ∧
    (∀ cat, (lookupA (cashbackAcc data y m) cat).getD 0 =
      ((data.filter (fun t =>
          cashbackQualifies y m t && (t.category == cat))).map
        (fun t => |t.amount| * 0.1)).sum) ∧
    (analyze_cashback_categories
      [{ date := some ⟨2020, 9, 15, 0⟩, status := "OK", amount := -100,
         category := "Food", descr := "", rounding := 0 }] 2020 9 =
      [("Food", 10)]) := by
  have htrans : ∀ a b c : String × ℚ, byValueDesc a b = true →
      byValueDesc b c = true → byValueDesc a c = true := by
    intro a b c hab hbc
    simp only [byValueDesc, decide_eq_true_eq] at *
    exact le_trans hbc hab
  have htotal : ∀ a b : String × ℚ,
      (byValueDesc a b || byValueDesc b a) = true := by
    intro a b
    simp only [byValueDesc, Bool.or_eq_true, decide_eq_true_eq]
    exact le_total b.2 a.2
  refine ⟨?_, ?_, rfl, ?_, ?_⟩
  · exact (List.sorted_mergeSort htrans htotal _).imp
      (fun h => by simpa [byValueDesc] using h)
  · intro a b heq hsub
    exact List.pair_sublist_mergeSort htrans htotal
      (by simp [byValueDesc, heq.symm.le]) hsub
  · intro cat
    have := cashbackAcc_lookup y m data [] cat
    unfold cashbackAcc
    rw [this]
    simp [lookupA, List.find?]
  · unfold analyze_cashback_categories
    rw [show cashbackAcc
        [{ date := some ⟨2020, 9, 15, 0⟩, status := "OK", amount := -100,
           category := "Food", descr := "", rounding := 0 }] 2020 9 =
        [("Food", 10)] from by decide]
    rw [List.mergeSort_of_sorted (by simp)]
    decide

/-- C5 witness: stability applied at a concrete two-category exact tie —
both categories accumulate 10, and the sorted dict keeps the
first-encountered order. -/
theorem analyze_cashback_categories_spec_witness :
    [("Аптеки", (10 : ℚ)), ("Книги", 10)].Sublist
      ((cashbackAcc
        [{ date := some ⟨2020, 9, 15, 0⟩, status := "OK", amount := -100,
           category := "Аптеки", descr := "", rounding := 0 },
         { date := some ⟨2020, 9, 16, 0⟩, status := "OK", amount := 100,
           category := "Книги", descr := "", rounding := 0 }] 2020 9).mergeSort
        byValueDesc) := by
  have h := (analyze_cashback_categories_spec
    [{ date := some ⟨2020, 9, 15, 0⟩, status := "OK", amount := -100,
       category := "Аптеки", descr := "", rounding := 0 },
     { date := some ⟨2020, 9, 16, 0⟩, status := "OK", amount := 100,
       category := "Книги", descr := "", rounding := 0 }] 2020 9).2.1
    ("Аптеки", (10 : ℚ)) ("Книги", 10) rfl
  apply h
  rw [show cashbackAcc
      [{ date := some ⟨2020, 9, 15, 0⟩, status := "OK", amount := -100,
         category := "Аптеки", descr := "", rounding := 0 },
       { date := some ⟨2020, 9, 16, 0⟩, status := "OK", amount := 100,
         category := "Книги", descr := "", rounding := 0 }] 2020 9 =
      [("Аптеки", 10), ("Книги", 10)] from by decide]

/-! ## Claim C4: `get_stock_prices` -/

/-- Reading a dict after `upsert`: the written key holds the new value,
every other key is unchanged. -/
theorem lookupA_upsert (k : String) (v : ℚ) :
    ∀ (l : List (String × ℚ)) (k' : String),
    lookupA (upsert l k v) k' = if k' = k then some v else lookupA l k' := by
  intro l
  induction l with
  | nil =>
    intro k'
    by_cases h : k' = k
    · subst h; simp [upsert, lookupA, List.find?]
    · simp [upsert, lookupA, List.find?, beq_eq_false_iff_ne.mpr (Ne.symm h), h]
  | cons p l ih =>
    intro k'
    obtain ⟨a, b⟩ := p
    by_cases hak : a = k
    · subst hak
      have hup : upsert ((a, b) :: l) a v = (a, v) :: l := by simp [upsert]
      rw [hup]
      by_cases h : k' = a
      · subst h; simp [lookupA, List.find?]
      · simp [lookupA, List.find?, beq_eq_false_iff_ne.mpr (Ne.symm h), h]
    · have hup : upsert ((a, b) :: l) k v = (a, b) :: upsert l k v := by
        simp [upsert, hak]
      rw [hup]
      by_cases h : k' = a
      · subst h
        simp [lookupA, List.find?, hak]
      · have h1 : lookupA ((a, b) :: upsert l k v) k' =
            lookupA (upsert l k v) k' := by
          simp [lookupA, List.find?, beq_eq_false_iff_ne.mpr (Ne.symm h)]
        have h2 : lookupA ((a, b) :: l) k' = lookupA l k' := by
          simp [lookupA, List.find?, beq_eq_false_iff_ne.mpr (Ne.symm h)]
        rw [h1, ih k', h2]

/-- Reading the dict produced by the fetch loop: a symbol in the missing
list holds its (defaulted) fetch result, other keys read from the start
value. -/
theorem fetchLoop_lookup (fetch : String → Option ℚ) :
    ∀ (missing : List String) (acc : List (String × ℚ)) (k : String),
    lookupA (missing.foldl (fun a s => upsert a s ((fetch s).getD 0)) acc) k =
      if k ∈ missing then some ((fetch k).getD 0) else lookupA acc k := by
  intro missing
  induction missing with
  | nil => intro acc k; simp
  | cons s rest ih =>
    intro acc k
    rw [List.foldl_cons, ih]
    by_cases hk : k ∈ rest
    · rw [if_pos hk, if_pos (List.mem_cons_of_mem s hk)]
    · rw [if_neg hk, lookupA_upsert]
      by_cases hks : k = s
      · subst hks; rw [if_pos rfl, if_pos (List.mem_cons_self k rest)]
      · rw [if_neg hks, if_neg (by simp [hks, hk])]

/-- Reading the dict after the preservation loop: a key keeps its prior
binding if any; otherwise it holds its cached price exactly when it is a
processed symbol that is `goodSym`. -/
theorem preserveLoop_lookup (existing : List (String × ℚ))
    (missing : List String) :
    ∀ (stocks : List String) (acc : List (String × ℚ)) (k : String),
    lookupA (preserveLoop stocks existing missing acc) k =
      (lookupA acc k).or
        (if k ∈ stocks ∧ goodSym existing missing k
         then some ((lookupA existing k).getD 0) else none) := by
  intro stocks
  induction stocks with
  | nil =>
    intro acc k
    simp [preserveLoop]
  | cons s rest ih =>
    intro acc k
    have hfold : preserveLoop (s :: rest) existing missing acc =
        preserveLoop rest existing missing (preserveStep existing missing acc s) := by
      simp [preserveLoop]
    rw [hfold, ih]
    by_cases hks : k = s
    · subst hks
      cases hacc : lookupA acc k with
      | some v =>
        have hstep : preserveStep existing missing acc k = acc := by
          simp [preserveStep, hacc]
        rw [hstep, hacc, Option.or_some, Option.or_some]
      | none =>
        cases hex : lookupA existing k with
        | none =>
          have hstep : preserveStep existing missing acc k = acc := by
            simp [preserveStep, hex]
          rw [hstep, hacc, Option.none_or, Option.none_or]
          have hg : ¬ goodSym existing missing k := by simp [goodSym, hex]
          rw [if_neg (by tauto), if_neg (by tauto)]
        | some p =>
          by_cases hgood : p ≠ 0 ∧ k ∉ missing
          · have hcont : missing.contains k = false := by
              simpa using hgood.2
            have hstep : preserveStep existing missing acc k =
                upsert acc k ((lookupA existing k).getD 0) := by
              simp [preserveStep, hacc, hex, hgood.1, hcont, hgood.2]
            have hg : goodSym existing missing k := by
              refine ⟨by rw [hex]; exact Option.some_ne_none p, ?_, hgood.2⟩
              rw [hex]
              simpa using hgood.1
            rw [hstep, lookupA_upsert]
            simp [hacc, hg, hex]
          · have hstep : preserveStep existing missing acc k = acc := by
              rcases not_and_or.mp hgood with hp | hm
              · push_neg at hp
                simp [preserveStep, hacc, hex, hp]
              · push_neg at hm
                have hb2 : (((lookupA existing k).getD 0 != 0) &&
                    !(missing.contains k)) = false := by
                  have hcont : missing.contains k = true := by simpa using hm
                  rw [hcont]
                  simp
                unfold preserveStep
                rw [hb2]
                simp
            rw [hstep, hacc, Option.none_or, Option.none_or]
            have hg : ¬ goodSym existing missing k := by
              unfold goodSym
              rw [hex]
              simp only [Option.getD_some, ne_eq]
              rcases not_and_or.mp hgood with hp | hm
              · push_neg at hp
                tauto
              · push_neg at hm
                tauto
            rw [if_neg (by tauto), if_neg (by tauto)]
    · have hstep : lookupA (preserveStep existing missing acc s) k =
          lookupA acc k := by
        unfold preserveStep
        split_ifs
        · rfl
        · rw [lookupA_upsert, if_neg hks]
        · rfl
      rw [hstep]
      by_cases hkr : k ∈ rest ∧ goodSym existing missing k
      · rw [if_pos hkr, if_pos ⟨List.mem_cons_of_mem s hkr.1, hkr.2⟩]
      · rw [if_neg hkr, if_neg (by
          rintro ⟨hmem, hg⟩
          rcases List.mem_cons.mp hmem with h | h
          · exact hks h
          · exact hkr ⟨h, hg⟩)]

/-- A duplicate-free list filtered by a predicate that holds exactly at one
of its members reduces to that single member. -/
theorem filter_eq_singleton (l : List String) (p : String → Bool) (b : String)
    (hnd : l.Nodup) (hb : b ∈ l) (hpb : p b = true)
    (hothers : ∀ a ∈ l, a ≠ b → p a = false) : l.filter p = [b] := by
  induction l with
  | nil => cases hb
  | cons a l ih =>
    rw [List.nodup_cons] at hnd
    rcases List.mem_cons.mp hb with rfl | hbl
    · rw [List.filter_cons_of_pos hpb]
      have hrest : l.filter p = [] := by
        apply List.filter_eq_nil_iff.mpr
        intro x hx
        rw [hothers x (List.mem_cons_of_mem _ hx)
          (fun hxb => hnd.1 (hxb ▸ hx))]
        simp
      rw [hrest]
    · have hab : a ≠ b := fun h => hnd.1 (h ▸ hbl)
      rw [List.filter_cons_of_neg
        (by rw [hothers a (List.mem_cons_self a l) hab]; simp)]
      exact ih hnd.2 hbl
        (fun x hx hxb => hothers x (List.mem_cons_of_mem _ hx) hxb)

/-- C4: with a same-day cache holding a nonzero price for every configured
symbol, `get_stock_prices` performs zero remote fetches and returns the
cached prices; with exactly one symbol zero-priced or missing, it fetches
exactly that symbol and preserves the other symbols' cached prices in the
returned (and rewritten) list. -/
theorem get_stock_prices_spec (userStocks : List String) (c : StockCache)
    (today : String) (fetch : String → Option ℚ) :
    ((c.date = today) →
      (∀ s ∈ userStocks, ∃ p,
        lookupA (existingPrices (some c) today) s = some p ∧ p ≠ 0) →
      (get_stock_prices userStocks (some c) today fetch).2 = [] ∧
      (get_stock_prices userStocks (some c) today fetch).1 =
        userStocks.map (fun s =>
          (s, (lookupA (existingPrices (some c) today) s).getD 0))) ∧
    (∀ b, userStocks.Nodup → b ∈ userStocks → c.date = today →
      (lookupA (existingPrices (some c) today) b = none ∨
       lookupA (existingPrices (some c) today) b = some 0) →
      (∀ s ∈ userStocks, s ≠ b → ∃ p,
        lookupA (existingPrices (some c) today) s = some p ∧ p ≠ 0) →
      (get_stock_prices userStocks (some c) today fetch).2 = [b] ∧
      (get_stock_prices userStocks (some c) today fetch).1 =
        userStocks.map (fun s =>
          (s, if s = b then (fetch b).getD 0
              else (lookupA (existingPrices (some c) today) s).getD 0))) := by
  constructor
  · intro _ h2
    have hmiss : missingOrBroken userStocks (existingPrices (some c) today) =
        [] := by
      apply List.filter_eq_nil_iff.mpr
      intro s hs
      obtain ⟨p, hp, hp0⟩ := h2 s hs
      simp [hp, hp0]
    refine ⟨hmiss, ?_⟩
    have h1 : (get_stock_prices userStocks (some c) today fetch).1 =
        userStocks.map (fun s =>
          (s, (lookupA (preserveLoop userStocks
            (existingPrices (some c) today)
            (missingOrBroken userStocks (existingPrices (some c) today))
            (fetchLoop fetch (missingOrBroken userStocks
              (existingPrices (some c) today)))) s).getD 0)) := rfl
    rw [h1]
    apply List.map_congr_left
    intro s hs
    obtain ⟨p, hp, hp0⟩ := h2 s hs
    rw [preserveLoop_lookup, hmiss]
    have hgs : goodSym (existingPrices (some c) today) [] s := by
      refine ⟨by rw [hp]; exact Option.some_ne_none p, ?_, by simp⟩
      rw [hp]
      simpa using hp0
    rw [show lookupA (fetchLoop fetch []) s = none from rfl, Option.none_or,
      if_pos ⟨hs, hgs⟩]
    simp
  · intro b hnd hb _ hbroken hothers
    have hmiss : missingOrBroken userStocks (existingPrices (some c) today) =
        [b] := by
      apply filter_eq_singleton userStocks _ b hnd hb
      · rcases hbroken with h | h <;> simp [h]
      · intro a ha hab
        obtain ⟨p, hp, hp0⟩ := hothers a ha hab
        simp [hp, hp0]
    refine ⟨hmiss, ?_⟩
    have h1 : (get_stock_prices userStocks (some c) today fetch).1 =
        userStocks.map (fun s =>
          (s, (lookupA (preserveLoop userStocks
            (existingPrices (some c) today)
            (missingOrBroken userStocks (existingPrices (some c) today))
            (fetchLoop fetch (missingOrBroken userStocks
              (existingPrices (some c) today)))) s).getD 0)) := rfl
    rw [h1]
    apply List.map_congr_left
    intro s hs
    rw [preserveLoop_lookup, hmiss]
    have hf : lookupA (fetchLoop fetch [b]) s =
        if s ∈ [b] then some ((fetch s).getD 0) else lookupA [] s :=
      fetchLoop_lookup fetch [b] [] s
    by_cases hsb : s = b
    · subst hsb
      rw [hf, if_pos (List.mem_singleton.mpr rfl), Option.or_some]
      simp
    · obtain ⟨p, hp, hp0⟩ := hothers s hs hsb
      have hgs : goodSym (existingPrices (some c) today) [b] s := by
        refine ⟨by rw [hp]; exact Option.some_ne_none p, ?_, by simp [hsb]⟩
        rw [hp]
        simpa using hp0
      rw [hf, if_neg (by simp [hsb]), show lookupA ([] : List (String × ℚ)) s
        = none from rfl, Option.none_or, if_pos ⟨hs, hgs⟩]
      simp [hsb]

/-- C4 witness: both cache scenarios at a concrete two-symbol
configuration — a fully fresh cache (zero fetches) and a cache with one
zero-priced symbol (one fetch, other price preserved). -/
theorem get_stock_prices_spec_witness :
    ((get_stock_prices ["AAPL", "MSFT"]
        (some ⟨"01.01.2024", [("AAPL", 3), ("MSFT", 4)]⟩) "01.01.2024"
        (fun _ => some 7)).2 = [] ∧
     (get_stock_prices ["AAPL", "MSFT"]
        (some ⟨"01.01.2024", [("AAPL", 3), ("MSFT", 4)]⟩) "01.01.2024"
        (fun _ => some 7)).1 =
      ["AAPL", "MSFT"].map (fun s =>
        (s, (lookupA (existingPrices
          (some ⟨"01.01.2024", [("AAPL", 3), ("MSFT", 4)]⟩) "01.01.2024")
          s).getD 0))) ∧
    ((get_stock_prices ["AAPL", "MSFT"]
        (some ⟨"01.01.2024", [("AAPL", 3), ("MSFT", 0)]⟩) "01.01.2024"
        (fun _ => some 7)).2 = ["MSFT"] ∧
     (get_stock_prices ["AAPL", "MSFT"]
        (some ⟨"01.01.2024", [("AAPL", 3), ("MSFT", 0)]⟩) "01.01.2024"
        (fun _ => some 7)).1 =
      ["AAPL", "MSFT"].map (fun s =>
        (s, if s = "MSFT" then ((fun _ => some (7 : ℚ)) "MSFT").getD 0
            else (lookupA (existingPrices
              (some ⟨"01.01.2024", [("AAPL", 3), ("MSFT", 0)]⟩) "01.01.2024")
              s).getD 0))) := by
  constructor
  · apply (get_stock_prices_spec ["AAPL", "MSFT"]
      ⟨"01.01.2024", [("AAPL", 3), ("MSFT", 4)]⟩ "01.01.2024"
      (fun _ => some 7)).1 rfl
    intro s hs
    simp only [List.mem_cons, List.not_mem_nil, or_false] at hs
    rcases hs with rfl | rfl
    · exact ⟨3, by decide, by decide⟩
    · exact ⟨4, by decide, by decide⟩
  · apply (get_stock_prices_spec ["AAPL", "MSFT"]
      ⟨"01.01.2024", [("AAPL", 3), ("MSFT", 0)]⟩ "01.01.2024"
      (fun _ => some 7)).2 "MSFT" (by decide) (by decide) rfl
      (Or.inr (by decide))
    intro s hs hne
    simp only [List.mem_cons, List.not_mem_nil, or_false] at hs
    rcases hs with rfl | rfl
    · exact ⟨3, by decide, by decide⟩
    · exact absurd rfl hne

/-! ## Claims C8 and C9: the regex matchers refine their declarative forms -/

/-- Semantics of the `p+` combinator: a nonempty prefix of class `p`
followed by a remainder accepted by the continuation. -/
theorem plus1_iff (p : Char → Bool) (k : List Char → Bool) :
    ∀ l : List Char, plus1 p k l = true ↔
      ∃ s t, l = s ++ t ∧ s ≠ [] ∧ (∀ c ∈ s, p c = true) ∧ k t = true := by
  intro l
  induction l with
  | nil =>
    rw [show plus1 p k [] = false from rfl]
    simp only [Bool.false_eq_true, false_iff]
    rintro ⟨s, t, heq, hne, -, -⟩
    exact hne (List.append_eq_nil.mp heq.symm).1
  | cons c r ih =>
    rw [show plus1 p k (c :: r) = (p c && (k r || plus1 p k r)) from rfl]
    simp only [Bool.and_eq_true, Bool.or_eq_true]
    constructor
    · rintro ⟨hpc, hk | hplus⟩
      · exact ⟨[c], r, rfl, by simp, by simpa using hpc, hk⟩
      · obtain ⟨s, t, rfl, hne, hall, hkt⟩ := ih.mp hplus
        refine ⟨c :: s, t, rfl, by simp, ?_, hkt⟩
        intro x hx
        rcases List.mem_cons.mp hx with rfl | hx
        · exact hpc
        · exact hall x hx
    · rintro ⟨s, t, heq, hne, hall, hkt⟩
      cases s with
      | nil => exact absurd rfl hne
      | cons a s' =>
        rw [List.cons_append] at heq
        injection heq with h1 h2
        subst h1
        refine ⟨hall c (List.mem_cons_self c s'), ?_⟩
        cases s' with
        | nil =>
          rw [List.nil_append] at h2
          subst h2
          exact Or.inl hkt
        | cons a' s'' =>
          refine Or.inr (ih.mpr ⟨a' :: s'', t, h2, by simp, ?_, hkt⟩)
          intro x hx
          exact hall x (List.mem_cons_of_mem c hx)

/-- Semantics of the `p{n}` combinator: an exact-length prefix of class `p`
followed by a remainder accepted by the continuation. -/
theorem exactN_iff (p : Char → Bool) :
    ∀ (n : Nat) (k : List Char → Bool) (l : List Char),
    exactN p n k l = true ↔
      ∃ s t, l = s ++ t ∧ s.length = n ∧ (∀ c ∈ s, p c = true) ∧
        k t = true := by
  intro n
  induction n with
  | zero =>
    intro k l
    rw [show exactN p 0 k l = k l from rfl]
    constructor
    · intro h
      exact ⟨[], l, rfl, rfl, by simp, h⟩
    · rintro ⟨s, t, rfl, hlen, -, hkt⟩
      rw [List.length_eq_zero.mp hlen, List.nil_append]
      exact hkt
  | succ n ih =>
    intro k l
    cases l with
    | nil =>
      rw [show exactN p (n + 1) k [] = false from rfl]
      simp only [Bool.false_eq_true, false_iff]
      rintro ⟨s, t, heq, hlen, -, -⟩
      rw [(List.append_eq_nil.mp heq.symm).1] at hlen
      exact Nat.succ_ne_zero n hlen.symm
    | cons c r =>
      rw [show exactN p (n + 1) k (c :: r) = (p c && exactN p n k r) from rfl]
      simp only [Bool.and_eq_true]
      constructor
      · rintro ⟨hpc, hrest⟩
        obtain ⟨s, t, rfl, hlen, hall, hkt⟩ := (ih k r).mp hrest
        refine ⟨c :: s, t, rfl, by simp [hlen], ?_, hkt⟩
        intro x hx
        rcases List.mem_cons.mp hx with rfl | hx
        · exact hpc
        · exact hall x hx
      · rintro ⟨s, t, heq, hlen, hall, hkt⟩
        cases s with
        | nil => cases hlen
        | cons a s' =>
          rw [List.cons_append] at heq
          injection heq with h1 h2
          subst h1
          refine ⟨hall c (List.mem_cons_self c s'), (ih k r).mpr
            ⟨s', t, h2, by simpa using hlen, ?_, hkt⟩⟩
          intro x hx
          exact hall x (List.mem_cons_of_mem c hx)

/-- Semantics of the single-character combinator. -/
theorem one_iff (p : Char → Bool) (k : List Char → Bool) :
    ∀ l : List Char, one p k l = true ↔
      ∃ c t, l = c :: t ∧ p c = true ∧ k t = true := by
  intro l
  cases l with
  | nil =>
    rw [show one p k [] = false from rfl]
    simp
  | cons c r =>
    rw [show one p k (c :: r) = (p c && k r) from rfl]
    simp only [Bool.and_eq_true]
    constructor
    · rintro ⟨hpc, hk⟩
      exact ⟨c, r, rfl, hpc, hk⟩
    · rintro ⟨c', t, heq, hpc, hk⟩
      injection heq with h1 h2
      subst h1
      subst h2
      exact ⟨hpc, hk⟩

/-- The phone matcher accepts a string exactly when the string contains a
substring of the claimed form. -/
theorem phoneFound_iff (s : String) :
    phoneFound s = true ↔ PhoneSub s.data := by
  unfold phoneFound PhoneSub
  rw [List.any_eq_true]
  constructor
  · rintro ⟨t, htails, hat⟩
    rw [List.mem_tails] at htails
    obtain ⟨pre, hpre⟩ := htails
    rcases t with _ | ⟨a, _ | ⟨b, r⟩⟩
    · exact absurd hat (by simp [phoneAt])
    · exact absurd hat (by simp [phoneAt])
    · simp only [phoneAt, Bool.and_eq_true, beq_iff_eq] at hat
      obtain ⟨⟨rfl, rfl⟩, htail⟩ := hat
      rw [plus1_iff] at htail
      obtain ⟨sp1, t1, rfl, hsp1ne, hsp1, h1⟩ := htail
      rw [exactN_iff] at h1
      obtain ⟨d1, t2, rfl, hd1len, hd1, h2⟩ := h1
      rw [plus1_iff] at h2
      obtain ⟨sp2, t3, rfl, hsp2ne, hsp2, h3⟩ := h2
      rw [exactN_iff] at h3
      obtain ⟨d2, t4, rfl, hd2len, hd2, h4⟩ := h3
      rw [one_iff] at h4
      obtain ⟨s1, t5, rfl, hs1, h5⟩ := h4
      rw [exactN_iff] at h5
      obtain ⟨d3, t6, rfl, hd3len, hd3, h6⟩ := h5
      rw [one_iff] at h6
      obtain ⟨s2, t7, rfl, hs2, h7⟩ := h6
      rw [exactN_iff] at h7
      obtain ⟨d4, post, rfl, hd4len, hd4, -⟩ := h7
      exact ⟨pre, sp1, d1, sp2, d2, s1, d3, s2, d4, post, by rw [← hpre],
        hsp1ne, hsp1, hd1len, hd1, hsp2ne, hsp2, hd2len, hd2, hs1, hd3len,
        hd3, hs2, hd4len, hd4⟩
  · rintro ⟨pre, sp1, d1, sp2, d2, s1, d3, s2, d4, post, heq, hsp1ne, hsp1,
      hd1len, hd1, hsp2ne, hsp2, hd2len, hd2, hs1, hd3len, hd3, hs2, hd4len,
      hd4⟩
    refine ⟨'+' :: '7' ::
      (sp1 ++ (d1 ++ (sp2 ++ (d2 ++ s1 :: (d3 ++ s2 :: (d4 ++ post)))))),
      ?_, ?_⟩
    · rw [List.mem_tails, heq]
      exact ⟨pre, rfl⟩
    · simp only [phoneAt, Bool.and_eq_true, beq_iff_eq]
      refine ⟨⟨trivial, trivial⟩, ?_⟩
      rw [plus1_iff]
      refine ⟨sp1, _, rfl, hsp1ne, hsp1, ?_⟩
      rw [exactN_iff]
      refine ⟨d1, _, rfl, hd1len, hd1, ?_⟩
      rw [plus1_iff]
      refine ⟨sp2, _, rfl, hsp2ne, hsp2, ?_⟩
      rw [exactN_iff]
      refine ⟨d2, _, rfl, hd2len, hd2, ?_⟩
      rw [one_iff]
      refine ⟨s1, _, rfl, hs1, ?_⟩
      rw [exactN_iff]
      refine ⟨d3, _, rfl, hd3len, hd3, ?_⟩
      rw [one_iff]
      refine ⟨s2, _, rfl, hs2, ?_⟩
      rw [exactN_iff]
      exact ⟨d4, post, rfl, hd4len, hd4, rfl⟩

/-- The person-name matcher accepts a string exactly when the string
contains a substring of the claimed form. -/
theorem nameFound_iff (s : String) :
    nameFound s = true ↔ NameSub s.data := by
  unfold nameFound NameSub
  rw [List.any_eq_true]
  constructor
  · rintro ⟨t, htails, hat⟩
    rw [List.mem_tails] at htails
    obtain ⟨pre, hpre⟩ := htails
    rcases t with _ | ⟨u1, r⟩
    · exact absurd hat (by simp [nameAt])
    · simp only [nameAt, Bool.and_eq_true] at hat
      obtain ⟨hu1, htail⟩ := hat
      rw [plus1_iff] at htail
      obtain ⟨w, t1, rfl, hwne, hw, h1⟩ := htail
      rw [plus1_iff] at h1
      obtain ⟨sp, t2, rfl, hspne, hsp, h2⟩ := h1
      rw [one_iff] at h2
      obtain ⟨u2, t3, rfl, hu2, h3⟩ := h2
      rw [one_iff] at h3
      obtain ⟨dot, post, rfl, hdot, -⟩ := h3
      rw [beq_iff_eq] at hdot
      subst hdot
      exact ⟨pre, u1, w, sp, u2, post, by rw [← hpre], hu1, hwne, hw, hspne,
        hsp, hu2⟩
  · rintro ⟨pre, u1, w, sp, u2, post, heq, hu1, hwne, hw, hspne, hsp, hu2⟩
    refine ⟨u1 :: (w ++ (sp ++ u2 :: '.' :: post)), ?_, ?_⟩
    · rw [List.mem_tails, heq]
      exact ⟨pre, rfl⟩
    · simp only [nameAt, Bool.and_eq_true]
      refine ⟨hu1, ?_⟩
      rw [plus1_iff]
      refine ⟨w, _, rfl, hwne, hw, ?_⟩
      rw [plus1_iff]
      refine ⟨sp, _, rfl, hspne, hsp, ?_⟩
      rw [one_iff]
      refine ⟨u2, _, rfl, hu2, ?_⟩
      rw [one_iff]
      exact ⟨'.', post, rfl, by simp, rfl⟩

/-- C8: a record qualifies for the phone-number search exactly when its
description contains a substring of the form `+7`, whitespace, three
digits, whitespace, three digits, space-or-hyphen, two digits,
space-or-hyphen, two digits; the matcher accepts the spec's two positive
examples and rejects its two negative ones. -/
theorem search_by_phone_spec (txns : List RawTxn) :
    (∀ r, r ∈ search_transactions_by_phone_numbers txns ↔
        r ∈ txns ∧ PhoneSub r.descr.data) ∧
    phoneFound "+7 995 555-55-55" = true ∧
    phoneFound "+7 995 555 55 55" = true ∧
    phoneFound "+7-995-555-55-55" = false ∧
    phoneFound "8 995 555 55 55" = false := by
  refine ⟨?_, by decide, by decide, by decide, by decide⟩
  intro r
  unfold search_transactions_by_phone_numbers
  rw [List.mem_filter, phoneFound_iff]

/-- C8 witness: a concrete record with a phone number in its description
is returned by the search. -/
theorem search_by_phone_spec_witness :
    ({ date := none, status := "OK", amount := -1, category := "",
       descr := "+7 995 555-55-55", rounding := 0 } : RawTxn) ∈
    search_transactions_by_phone_numbers
      [{ date := none, status := "OK", amount := -1, category := "",
         descr := "+7 995 555-55-55", rounding := 0 }] :=
  ((search_by_phone_spec _).1 _).mpr
    ⟨List.mem_singleton.mpr rfl,
     ⟨[], [' '], ['9', '9', '5'], [' '], ['5', '5', '5'], '-', ['5', '5'],
      '-', ['5', '5'], [], by decide, by decide, by decide, by decide,
      by decide, by decide, by decide, by decide, by decide, by decide,
      by decide, by decide, by decide, by decide, by decide⟩⟩

/-- C9 (amended): a record qualifies for the transfers-to-individuals
search exactly when its category, after stripping surrounding whitespace,
case-insensitively equals `"переводы"` and its description contains one
capitalized word, whitespace, and one capital letter followed by a
period; the matcher accepts `"Иван И."`. -/
theorem search_transfers_spec (txns : List RawTxn) :
    (∀ r, r ∈ search_transfers_to_individuals txns ↔
        r ∈ txns ∧ pyLower (pyStrip r.category) = "переводы" ∧
          NameSub r.descr.data) ∧
    nameFound "Иван И." = true := by
  refine ⟨?_, by decide⟩
  intro r
  unfold search_transfers_to_individuals
  rw [List.mem_filter]
  simp only [Bool.and_eq_true, beq_iff_eq, nameFound_iff, and_assoc]

/-- C9 witness: a concrete transfer record with a person name in its
description is returned by the search. -/
theorem search_transfers_spec_witness :
    ({ date := none, status := "OK", amount := -1, category := "Переводы",
       descr := "Иван И.", rounding := 0 } : RawTxn) ∈
    search_transfers_to_individuals
      [{ date := none, status := "OK", amount := -1, category := "Переводы",
         descr := "Иван И.", rounding := 0 }] :=
  ((search_transfers_spec _).1 _).mpr
    ⟨List.mem_singleton.mpr rfl, by decide,
     ⟨[], 'И', ['в', 'а', 'н'], [' '], 'И', [], by decide, by decide,
      by decide, by decide, by decide, by decide, by decide⟩⟩

/-- C9 counterexample: the source strips the category before comparing, so
a record whose category is `" переводы "` (with surrounding spaces, hence
not case-insensitively equal to the transfers category) is nevertheless
returned. -/
theorem search_transfers_counterexample :
    ({ date := none, status := "OK", amount := -1, category := " переводы ",
       descr := "Иван И.", rounding := 0 } : RawTxn) ∈
    search_transfers_to_individuals
      [{ date := none, status := "OK", amount := -1, category := " переводы ",
         descr := "Иван И.", rounding := 0 }] ∧
    pyLower " переводы " ≠ pyLower "Переводы" ∧
    pyLower " переводы " ≠ "переводы" := by decide
